import Mathlib

/-!
Verification development for the rgrok structural code-search tool
(`src/lib.rs`, `src/util.rs`).  The program is shallowly embedded: file
contents are lists of bytes, the external collaborators (the `syn` parser,
the `syntect` highlighter, the `regex` matcher) are abstracted at exactly
the interfaces the code uses, and the internal algorithms — the byte-span
table (`grep_items`, src/lib.rs lines 290-302), construct slicing
(lines 316-331), the per-construct filtering and channel pipeline
(lines 303-364, 166-188, 190-256) and the match overlay
(`highlight_matches_in_line`, lines 375-400) — are translated function by
function.
-/

set_option autoImplicit false

namespace Rgrok

/-- Bytes of a file are modelled as natural numbers (one entry per byte of
the Rust `String`/`&str`; UTF-8 continuation bytes are never equal to the
newline byte 10, so byte-level line splitting agrees with the source). -/
abbrev ByteStr := List Nat

/-- Byte value of the line feed character `\n`. -/
def nlByte : Nat := 10

/-- Embedding of `LINE_REGEX.find_iter(text)` for the nonempty-match part,
from src/lib.rs lines 271-276 and 293: the pattern `(.*\r?\n?)` (multi_line,
where `.` does not match `\n`) matched leftmost-greedy at a position either
consumes every byte up to and including the first `\n`, or, when no `\n`
remains, every remaining byte (`.*` greedily takes the whole `\r`-or-other
tail, so the optional `\r?\n?` suffix never backtracks).  Hence the
iterator's nonempty matches are exactly the file's lines, each including
its terminator, with a final unterminated line kept and no empty trailing
line after a final `\n`. -/
def lineChunks : ByteStr → List ByteStr
  | [] => []
  | b :: rest =>
    if b = nlByte then [b] :: lineChunks rest
    else
      match lineChunks rest with
      | [] => [[b]]
      | l :: ls => (b :: l) :: ls

/-- Embedding of the full `LINE_REGEX.find_iter` sequence, src/lib.rs
line 293, under the regex 1.x iterator semantics contemporary with this
code: after the last nonempty match (which always ends at the end of the
text, since matches are contiguous from offset 0), the pattern still
matches the empty string there, and the iterator skips an empty match only
when it is adjacent to the previous match's end.  For nonempty text the
final empty match is therefore skipped and the matches are exactly
`lineChunks`; for empty text there is no previous match, so the single
empty match at offset 0 is reported. -/
def findIterLine (t : ByteStr) : List ByteStr :=
  if t = [] then [[]] else lineChunks t

/-- Embedding of the `scan(0, |acc, l| { *acc += l.as_str().len(); Some(*acc) })`
accumulator of src/lib.rs lines 293-296: running totals of the match
lengths, starting from `acc`. -/
def cumFrom (acc : Nat) : List ByteStr → List Nat
  | [] => []
  | l :: ls => (acc + l.length) :: cumFrom (acc + l.length) ls

/-- Total byte length of a list of chunks. -/
def sumLens (ls : List ByteStr) : Nat := (ls.map List.length).sum

/-- Offset table built from a list of chunks: a leading `0` followed by the
running byte totals.  This scan pattern occurs twice in the source: for the
ByteSpanTable of `grep_items` (src/lib.rs lines 292-296) and for the styled
range boundaries `rs` of `highlight_matches_in_line` (lines 377-381). -/
def offsets (ls : List ByteStr) : List Nat :=
  0 :: cumFrom 0 ls

/-- Embedding of the ByteSpanTable built by `grep_items`, src/lib.rs
lines 290-296: a leading `0` followed by the running byte totals of the
`LINE_REGEX` matches. -/
def byteSpans (t : ByteStr) : List Nat :=
  offsets (findIterLine t)

/-- Embedding of the Rust slice `&text[a..b]` on byte offsets (src/lib.rs
line 322); in every use below `a ≤ b ≤ text.len()` holds, where the Rust
expression is defined and equals these bytes. -/
def sliceBytes (t : ByteStr) (a b : Nat) : ByteStr :=
  (t.drop a).take (b - a)

/-- Embedding of the construct slice taken by `grep_items`, src/lib.rs
lines 320-322: `&file.contents[byte_spans[start]..byte_spans[end]]` for a
parser-reported line span `(start, end)`. -/
def codeSlice (c : ByteStr) (s e : Nat) : ByteStr :=
  sliceBytes c ((byteSpans c).getD s 0) ((byteSpans c).getD e 0)

/-- Concatenation of the file's 1-indexed lines `s` through `e`, each with
its terminator: the source text a construct spanning lines `s..e` consists
of.  This is the reference value the specification's round-trip sentence
describes. -/
def specLinesSlice (c : ByteStr) (s e : Nat) : ByteStr :=
  (((lineChunks c).drop (s - 1)).take (e - s + 1)).flatten

/-! ### Basic facts about the line chunks and the span table -/

theorem lineChunks_flatten : ∀ t : ByteStr, (lineChunks t).flatten = t := by
  intro t
  induction t with
  | nil => rfl
  | cons b rest ih =>
    by_cases hb : b = nlByte
    · simpa [lineChunks, hb] using ih
    · cases hrest : lineChunks rest with
      | nil =>
        rw [hrest] at ih
        simp only [List.flatten_nil] at ih
        simp [lineChunks, hb, hrest, ← ih]
      | cons l ls =>
        rw [hrest] at ih
        simp only [List.flatten_cons] at ih
        simp [lineChunks, hb, hrest, ih]

theorem sumLens_lineChunks (t : ByteStr) : sumLens (lineChunks t) = t.length := by
  have h := congrArg List.length (lineChunks_flatten t)
  simpa [sumLens, List.length_flatten] using h

theorem cumFrom_length (a : Nat) (ls : List ByteStr) :
    (cumFrom a ls).length = ls.length := by
  induction ls generalizing a with
  | nil => rfl
  | cons l ls ih => simp [cumFrom, ih]

theorem offsets_length (ls : List ByteStr) :
    (offsets ls).length = ls.length + 1 := by
  simp [offsets, cumFrom_length]

theorem byteSpans_length (t : ByteStr) :
    (byteSpans t).length = (findIterLine t).length + 1 := by
  simp [byteSpans, offsets_length]

theorem cumFrom_getD (ls : List ByteStr) :
    ∀ (a i : Nat), i < ls.length →
      (cumFrom a ls).getD i 0 = a + sumLens (ls.take (i + 1)) := by
  induction ls with
  | nil => intro a i h; simp at h
  | cons l ls ih =>
    intro a i h
    cases i with
    | zero => simp [cumFrom, sumLens]
    | succ i =>
      have hi : i < ls.length := by simpa using h
      simp only [cumFrom, List.getD_cons_succ, List.take_succ_cons]
      rw [ih (a + l.length) i hi]
      simp [sumLens, Nat.add_assoc]

theorem offsets_getD (ls : List ByteStr) (i : Nat) (h : i ≤ ls.length) :
    (offsets ls).getD i 0 = sumLens (ls.take i) := by
  cases i with
  | zero => simp [offsets, sumLens]
  | succ i =>
    have hi : i < ls.length := Nat.lt_of_succ_le h
    simp only [offsets, List.getD_cons_succ]
    rw [cumFrom_getD _ 0 i hi]
    simp

theorem byteSpans_getD (t : ByteStr) (i : Nat) (h : i ≤ (findIterLine t).length) :
    (byteSpans t).getD i 0 = sumLens ((findIterLine t).take i) :=
  offsets_getD _ i h

theorem findIterLine_of_ne_nil {t : ByteStr} (h : t ≠ []) :
    findIterLine t = lineChunks t := by
  simp [findIterLine, h]

theorem sumLens_findIterLine (t : ByteStr) :
    sumLens (findIterLine t) = t.length := by
  by_cases h : t = []
  · subst h; simp [findIterLine, sumLens]
  · rw [findIterLine_of_ne_nil h, sumLens_lineChunks]

/-- Helper: the last entry of a nonempty list through `getD`. -/
theorem getLast?_eq_getD : ∀ (l : List Nat), l ≠ [] →
    l.getLast? = some (l.getD (l.length - 1) 0) := by
  intro l
  induction l with
  | nil => intro h; exact absurd rfl h
  | cons x xs ih =>
    intro _
    cases xs with
    | nil => rfl
    | cons y ys =>
      rw [List.getLast?_cons_cons, ih (by simp)]
      simp

theorem offsets_getLast? (ls : List ByteStr) :
    (offsets ls).getLast? = some (sumLens ls) := by
  have hne : offsets ls ≠ [] := by simp [offsets]
  rw [getLast?_eq_getD _ hne]
  have hlen : (offsets ls).length - 1 = ls.length := by
    simp [offsets_length]
  rw [hlen, offsets_getD ls _ (Nat.le_refl _)]
  simp

/-- The span table always ends at the byte length of the text: the assert
at src/lib.rs lines 297-302 can never fire. -/
theorem byteSpans_last_eq_length (t : ByteStr) :
    (byteSpans t).getLast? = some t.length := by
  rw [byteSpans, offsets_getLast?, sumLens_findIterLine]

theorem sumLens_append (a b : List ByteStr) :
    sumLens (a ++ b) = sumLens a + sumLens b := by
  simp [sumLens]

theorem sumLens_take_mono (ls : List ByteStr) {i j : Nat} (h : i ≤ j) :
    sumLens (ls.take i) ≤ sumLens (ls.take j) := by
  have hj : j = i + (j - i) := by omega
  rw [hj, List.take_add, sumLens_append]
  exact Nat.le_add_right _ _

theorem sumLens_take_succ (ls : List ByteStr) (i : Nat) (h : i < ls.length) :
    sumLens (ls.take (i + 1)) = sumLens (ls.take i) + (ls.getD i []).length := by
  rw [List.take_succ, sumLens_append]
  have : ls[i]? = some (ls.getD i []) := by
    simp [List.getElem?_eq_getElem h]
  rw [this]
  simp [sumLens]

/-- The offset table is monotone at the `getD` level. -/
theorem offsets_getD_mono (ls : List ByteStr) {i j : Nat}
    (hij : i ≤ j) (hj : j ≤ ls.length) :
    (offsets ls).getD i 0 ≤ (offsets ls).getD j 0 := by
  rw [offsets_getD ls i (Nat.le_trans hij hj), offsets_getD ls j hj]
  exact sumLens_take_mono ls hij

/-- When every chunk is nonempty the offset table is strictly monotone. -/
theorem offsets_getD_strict (ls : List ByteStr)
    (hpos : ∀ c ∈ ls, c ≠ []) {i j : Nat}
    (hij : i < j) (hj : j ≤ ls.length) :
    (offsets ls).getD i 0 < (offsets ls).getD j 0 := by
  rw [offsets_getD ls i (Nat.le_trans (Nat.le_of_lt hij) hj), offsets_getD ls j hj]
  have hi : i < ls.length := Nat.lt_of_lt_of_le hij hj
  have hchunk : (ls.getD i []).length ≥ 1 := by
    have hmem : ls.getD i [] ∈ ls := by
      have hg : ls.getD i [] = ls[i] := by
        simp [List.getElem?_eq_getElem hi]
      rw [hg]
      exact List.getElem_mem hi
    have := hpos _ hmem
    cases hc : ls.getD i [] with
    | nil => exact absurd hc this
    | cons x xs => simp
  calc sumLens (ls.take i) < sumLens (ls.take i) + (ls.getD i []).length := by omega
    _ = sumLens (ls.take (i + 1)) := (sumLens_take_succ ls i hi).symm
    _ ≤ sumLens (ls.take j) := sumLens_take_mono ls hij

theorem offsets_chain'_le (ls : List ByteStr) :
    List.Chain' (· ≤ ·) (offsets ls) := by
  rw [offsets]
  suffices h : ∀ (a : Nat) (ls : List ByteStr), List.Chain' (· ≤ ·) (a :: cumFrom a ls) by
    exact h 0 ls
  intro a ls
  induction ls generalizing a with
  | nil => simp [cumFrom]
  | cons l ls ih =>
    simp only [cumFrom]
    exact List.Chain'.cons (by omega) (ih (a + l.length))

theorem offsets_diff (ls : List ByteStr) (i : Nat) (h : i < ls.length) :
    (offsets ls).getD (i + 1) 0 - (offsets ls).getD i 0 = (ls.getD i []).length := by
  rw [offsets_getD ls i (Nat.le_of_lt h), offsets_getD ls (i + 1) h,
    sumLens_take_succ ls i h]
  omega

/-! ### The grep pipeline

Data model from src/util.rs and src/lib.rs.  External collaborators are
embedded at their interfaces: the `syn` parser's outcome is carried as data
on each file (`parsed`; `none` models a `syn::parse_file` error), the regex
engine is a boolean predicate `im` on byte strings (`Regex::is_match`), and
the per-construct rendering pipeline (syntect highlighting, match overlay,
terminal escaping, src/lib.rs lines 332-341) is a deterministic function
`r` of the sliced text, fixed for a run (same syntax, theme and regex in
both operating modes). -/

/-- Embedding of `ItemType`, src/util.rs lines 15-34.  The two
constructors whose Rust names are keywords or reserved here are suffixed
with `I`. -/
inductive ItemType where
  | Fn | Enum | Const | ExternCrate | ForeignMod | Impl
  | MacI | MacI2 | Mod | Static | Struct | Trait | TraitAlias
  | TypeI | Union | Use | Verbatim
deriving DecidableEq, Repr, Inhabited

/-- Embedding of `GrepResult`, src/lib.rs lines 265-269: the construct
kind, its `(start_line, end_line)` span and the rendered buffer. -/
structure GrepResult where
  item_type : ItemType
  line_range : Nat × Nat
  text : ByteStr
deriving DecidableEq, Repr, Inhabited

/-- A parser-reported construct: kind plus 1-indexed `(start_line,
end_line)` span, as produced at src/lib.rs lines 308-314 from
`item.span()`. -/
abbrev RItem := ItemType × Nat × Nat

/-- A candidate file as seen by the walkers (after the `is_rust_file`
filter): whether `std::fs::read_to_string` succeeds (src/util.rs
lines 75-81), the byte contents, and the outcome of the external
`syn::parse_file` on those contents (src/lib.rs lines 285-289).  Syntax
lookup for `.rs` files is assumed to succeed, as it does for the bundled
syntax set. -/
structure RFile where
  readable : Bool
  contents : ByteStr
  parsed : Option (List RItem)
deriving DecidableEq, Repr, Inhabited

/-- Embedding of the per-construct body of `grep_items`, src/lib.rs
lines 316-349: slice the construct's text via the span table, then either
hit the dead large-file branch (`byte_spans.len() > 100`, lines 323-330,
which scans matches and discards both binary-search outcomes, emitting
nothing) or emit a `GrepResult` exactly when the regex matches the slice.
`none` means no result is sent on the channel for this construct. -/
def grepItem (im : ByteStr → Bool) (r : ByteStr → ByteStr) (c : ByteStr)
    (spans : List Nat) : RItem → Option GrepResult
  | (t, s, e) =>
    let slice := sliceBytes c (spans.getD s 0) (spans.getD e 0)
    if spans.length > 100 then none
    else if im slice then some ⟨t, (s, e), r slice⟩
    else none

/-- Embedding of `grep_items`, src/lib.rs lines 277-365, with the results
listed in construct declaration order.  A parse failure returns without
emitting anything (lines 286-289).  The real function feeds the constructs
through a rayon parallel iterator into an unbounded channel and drains the
channel after the iterator finishes, so the order actually printed is the
channel receipt order — an arbitrary permutation of this list, modelled by
`grepItemsSched` below. -/
def grepItems (im : ByteStr → Bool) (r : ByteStr → ByteStr) (f : RFile) :
    List GrepResult :=
  match f.parsed with
  | none => []
  | some items => items.filterMap (grepItem im r f.contents (byteSpans f.contents))

/-- Embedding of `rgrok_dir`, src/lib.rs lines 166-188 (sequential mode):
walk the files in traversal order; for each readable file run `grep_items`
and write its results before moving on.  A read failure in `parse_file`
propagates through the `?` operator (line 178), so the whole run returns
with an error: the flag is `false` and no later file contributes.  Walker
errors themselves are skipped (line 184), so only the files the walker
yields appear in the input list.  Results here are in declaration order
per file; the scheduled variant below adds the within-file receipt
permutation. -/
def rgrokDirSeq (im : ByteStr → Bool) (r : ByteStr → ByteStr) :
    List RFile → List GrepResult × Bool
  | [] => ([], true)
  | f :: rest =>
    if f.readable then
      let out := grepItems im r f
      let res := rgrokDirSeq im r rest
      (out ++ res.1, res.2)
    else ([], false)

/-- Reordering of a list by a schedule of indices.  A valid schedule is a
permutation of `range l.length`; it models the nondeterministic order in
which concurrent workers deliver into a channel. -/
def applySched {α : Type} (σ : List Nat) (l : List α) (d : α) : List α :=
  σ.map fun i => l.getD i d

/-- Validity of a schedule for a list: it enumerates each position once. -/
def ValidSched {α : Type} (σ : List Nat) (l : List α) : Prop :=
  σ.Perm (List.range l.length)

instance validSchedDecidable {α : Type} (σ : List Nat) (l : List α) :
    Decidable (ValidSched σ l) :=
  List.decidablePerm σ (List.range l.length)

/-- Default element used when reordering result lists. -/
def defaultResult : GrepResult := ⟨.Fn, (0, 0), []⟩

/-- `grep_items` with the rayon/channel receipt order made explicit: the
constructs' results are delivered in the order given by the schedule
(src/lib.rs lines 303, 315-316, 347, 353-364: the parallel iterator sends
into an unbounded channel, which is drained only after `for_each`
returns). -/
def grepItemsSched (σ : List Nat) (im : ByteStr → Bool)
    (r : ByteStr → ByteStr) (f : RFile) : List GrepResult :=
  applySched σ (grepItems im r f) defaultResult

/-- `rgrok_dir` with one receipt schedule per file. -/
def rgrokDirSeqSched (im : ByteStr → Bool) (r : ByteStr → ByteStr) :
    List (List Nat) → List RFile → List GrepResult × Bool
  | _, [] => ([], true)
  | σs, f :: rest =>
    if f.readable then
      let out := grepItemsSched (σs.headD []) im r f
      let res := rgrokDirSeqSched im r σs.tail rest
      (out ++ res.1, res.2)
    else ([], false)

/-- Default file used when reordering file lists. -/
def defaultFile : RFile := default

/-- Embedding of `rgrok_dir_parallel`, src/lib.rs lines 190-256: the
parallel walker's visitors see the files in a nondeterministic order `π`;
a visitor sends a file to the consumer only when the regex matches the
whole file contents (`self.re.is_match(&file.contents)`, line 214); the
single consumer then runs `grep_items` on each received file in receipt
order.  Read and syntax-lookup failures are `unwrap`ped in the visitor
(panicking the worker), so the model covers trees of readable files. -/
def rgrokDirPar (im : ByteStr → Bool) (r : ByteStr → ByteStr)
    (π : List Nat) (files : List RFile) : List GrepResult :=
  ((((applySched π files defaultFile).filter fun f => im f.contents).map
    (grepItems im r))).flatten

/-! ### The match overlay (`highlight_matches_in_line`)

Embedding of src/lib.rs lines 367-400.  A syntect `Style` carries a
foreground colour, a background colour and a font-style bitset; the code
mutates only `font_style` and `foreground` of selected ranges. -/

/-- Embedding of `syntect::highlighting::Color` (RGBA bytes). -/
structure Color where
  r : Nat
  g : Nat
  b : Nat
  a : Nat
deriving DecidableEq, Repr, Inhabited

/-- Embedding of `syntect::highlighting::Style`; `font_style` is the
`FontStyle` bitset as a natural number (`FontStyle::BOLD = 1`). -/
structure Style where
  foreground : Color
  background : Color
  font_style : Nat
deriving DecidableEq, Repr, Inhabited

/-- The `FontStyle::BOLD` bit. -/
def fontStyleBold : Nat := 1

/-- Embedding of `HIGHLIGHT_COLOR`, src/lib.rs lines 367-372. -/
def HIGHLIGHT_COLOR : Color := ⟨255, 255, 80, 255⟩

/-- One styled range as handed over by the highlighter: a style and the
substring of the line it covers (src/lib.rs line 336). -/
abbrev StyledRange := Style × ByteStr

/-- The overlay's mutation of one range's style, src/lib.rs lines 386-387
and 393-394: set the font style to bold and the foreground to the
highlight colour; the background and the text slice are untouched. -/
def emphStyle (s : Style) : Style :=
  { s with font_style := fontStyleBold, foreground := HIGHLIGHT_COLOR }

/-- `emphStyle` applied to a full range. -/
def emphRange (x : StyledRange) : StyledRange :=
  (emphStyle x.1, x.2)

/-- Result type of Rust `slice::binary_search`: `Ok(index)` of some
matching element, or `Err(insertion_point)`. -/
inductive BSResult where
  | found (i : Nat)
  | notFound (j : Nat)
deriving DecidableEq, Repr

/-- Loop body of Rust `slice::binary_search_by` (core, midpoint
bisection): `left`/`right` bracket the search; at each step the probe is
`left + (right - left) / 2`.  Fuel bounds the iteration count; every call
below supplies at least `right - left + 1`, which the termination argument
of the loop shows is enough. -/
def bsGo (xs : List Nat) (target : Nat) : Nat → Nat → Nat → BSResult
  | 0, left, _ => .notFound left
  | fuel + 1, left, right =>
    if left < right then
      let mid := left + (right - left) / 2
      let x := xs.getD mid 0
      if x < target then bsGo xs target fuel (mid + 1) right
      else if target < x then bsGo xs target fuel left mid
      else .found mid
    else .notFound left

/-- Embedding of `rs.binary_search(&m.start())`, src/lib.rs line 384. -/
def binarySearch (xs : List Nat) (target : Nat) : BSResult :=
  bsGo xs target (xs.length + 1) 0 xs.length

/-- In-place update of one list position. -/
def modifyAt {α : Type} : List α → Nat → (α → α) → List α
  | [], _, _ => []
  | a :: as, 0, f => f a :: as
  | a :: as, i + 1, f => a :: modifyAt as i f

/-- One iteration of the match loop of `highlight_matches_in_line`,
src/lib.rs lines 383-398, over the current range list `cur` (the
boundary table `rs` is computed once from the original ranges and the
match `m = (start, end)` comes from `re.find_iter(line)`).  `none` models
a panic: an out-of-bounds `ranges[i]` or `rs[j]` index, or the
`new_index - 1` underflow of a zero insertion point (debug overflow
check; in release the wrapped index makes `rs.get` return `None` and the
match is skipped — both unreachable under the preconditions proved
below). -/
def highlightStep (rs : List Nat) (cur : List StyledRange) (m : Nat × Nat) :
    Option (List StyledRange) :=
  match binarySearch rs m.1 with
  | .found i =>
    if i < cur.length then some (modifyAt cur i emphRange) else none
  | .notFound j =>
    if j < rs.length then
      if rs.getD j 0 = m.2 then
        if j = 0 then none
        else if j - 1 < rs.length then
          if j - 1 < cur.length then some (modifyAt cur (j - 1) emphRange)
          else none
        else some cur
      else some cur
    else none

/-- The match loop folded over the whole match list. -/
def highlightGo (rs : List Nat) : List StyledRange → List (Nat × Nat) →
    Option (List StyledRange)
  | cur, [] => some cur
  | cur, m :: ms =>
    match highlightStep rs cur m with
    | none => none
    | some next => highlightGo rs next ms

/-- Embedding of `highlight_matches_in_line`, src/lib.rs lines 375-400:
build the cumulative boundary table `rs` of the styled ranges, then for
each regex match emphasize the range whose start boundary equals the
match start, or, on a miss whose insertion point's boundary equals the
match end, the range immediately before that boundary.  Returns the
mutated range list, or `none` for a panic. -/
def highlight_matches_in_line (ranges : List StyledRange)
    (ms : List (Nat × Nat)) : Option (List StyledRange) :=
  highlightGo (offsets (ranges.map Prod.snd)) ranges ms

/-- Index of the range a single match emphasizes, if any, as determined
by the binary search on the boundary table (the pure content of
`highlightStep` when no panic occurs). -/
def targetOf (rs : List Nat) (m : Nat × Nat) : Option Nat :=
  match binarySearch rs m.1 with
  | .found i => some i
  | .notFound j =>
    if j < rs.length ∧ rs.getD j 0 = m.2 ∧ j ≠ 0 then some (j - 1) else none

/-- Modelled from the spec (section 4.3, Match Overlay): range `i` is to
be emphasized exactly when some match starts at `i`'s start boundary, or
some match starts strictly inside range `i` and ends exactly at `i`'s end
boundary (the match occupies the tail of range `i`). -/
def specEmphCond (rs : List Nat) (ms : List (Nat × Nat)) (i : Nat) : Bool :=
  ms.any fun m =>
    rs.getD i 0 = m.1 ∨
      (rs.getD i 0 < m.1 ∧ m.1 < rs.getD (i + 1) 0 ∧ m.2 = rs.getD (i + 1) 0)

/-- Apply a condition-driven emphasis over a range list, positions counted
from `i`. -/
def applyCond (cond : Nat → Bool) : Nat → List StyledRange → List StyledRange
  | _, [] => []
  | i, x :: rest =>
    (if cond i then emphRange x else x) :: applyCond cond (i + 1) rest

/-! ### Correctness of the embedded binary search -/

/-- Non-decreasing at the `getD` level; what `slice::binary_search`
requires of its input. -/
def SortedLe (xs : List Nat) : Prop :=
  ∀ i j : Nat, i ≤ j → j < xs.length → xs.getD i 0 ≤ xs.getD j 0

theorem offsets_sortedLe (ls : List ByteStr) : SortedLe (offsets ls) := by
  intro i j hij hj
  have hj' : j ≤ ls.length := by
    have := offsets_length ls
    omega
  exact offsets_getD_mono ls hij hj'

theorem bsGo_spec (xs : List Nat) (target : Nat) (hs : SortedLe xs) :
    ∀ (fuel left right : Nat), right ≤ xs.length → left ≤ right →
      right - left < fuel →
      (∀ k, k < left → xs.getD k 0 < target) →
      (∀ k, right ≤ k → k < xs.length → target < xs.getD k 0) →
      (∀ i, bsGo xs target fuel left right = .found i →
          i < xs.length ∧ xs.getD i 0 = target) ∧
      (∀ j, bsGo xs target fuel left right = .notFound j →
          j ≤ xs.length ∧ (∀ k, k < j → xs.getD k 0 < target) ∧
          (∀ k, j ≤ k → k < xs.length → target < xs.getD k 0)) := by
  intro fuel
  induction fuel with
  | zero =>
    intro left right _ _ h3 _ _
    exact absurd h3 (Nat.not_lt_zero _)
  | succ fuel ih =>
    intro left right hr hlr hfuel hleft hright
    by_cases hlt : left < right
    · have hmidlt : left + (right - left) / 2 < right := by omega
      have hmidge : left ≤ left + (right - left) / 2 := Nat.le_add_right _ _
      have hmidlen : left + (right - left) / 2 < xs.length :=
        Nat.lt_of_lt_of_le hmidlt hr
      rcases Nat.lt_trichotomy (xs.getD (left + (right - left) / 2) 0) target
        with hx | hx | hx
      · have hxe : xs[left + (right - left) / 2]?.getD 0 < target := by
          simpa using hx
        have heq : bsGo xs target (fuel + 1) left right =
            bsGo xs target fuel (left + (right - left) / 2 + 1) right := by
          simp [bsGo, hlt, hxe]
        rw [heq]
        refine ih (left + (right - left) / 2 + 1) right hr (by omega)
          (by omega) ?_ hright
        intro k hk
        exact Nat.lt_of_le_of_lt
          (hs k (left + (right - left) / 2) (by omega) hmidlen) hx
      · have hxe : xs[left + (right - left) / 2]?.getD 0 = target := by
          simpa using hx
        have heq : bsGo xs target (fuel + 1) left right =
            .found (left + (right - left) / 2) := by
          simp [bsGo, hlt, hxe]
        constructor
        · intro i hi
          rw [heq] at hi
          cases hi
          exact ⟨hmidlen, hx⟩
        · intro j hj
          rw [heq] at hj
          exact absurd hj (by simp)
      · have hxe : target < xs[left + (right - left) / 2]?.getD 0 := by
          simpa using hx
        have hxe' : ¬ xs[left + (right - left) / 2]?.getD 0 < target := by
          omega
        have heq : bsGo xs target (fuel + 1) left right =
            bsGo xs target fuel left (left + (right - left) / 2) := by
          simp [bsGo, hlt, hxe', hxe]
        rw [heq]
        refine ih left (left + (right - left) / 2)
          (Nat.le_of_lt hmidlen) (by omega) (by omega) hleft ?_
        intro k hk hklen
        exact Nat.lt_of_lt_of_le hx (hs (left + (right - left) / 2) k hk hklen)
    · have heq : bsGo xs target (fuel + 1) left right = .notFound left := by
        simp [bsGo, hlt]
      constructor
      · intro i hi
        rw [heq] at hi
        exact absurd hi (by simp)
      · intro j hj
        rw [heq] at hj
        cases hj
        refine ⟨Nat.le_trans hlr hr, hleft, ?_⟩
        intro k hk hklen
        exact hright k (by omega) hklen

theorem binarySearch_found {xs : List Nat} {target i : Nat} (hs : SortedLe xs)
    (h : binarySearch xs target = .found i) :
    i < xs.length ∧ xs.getD i 0 = target :=
  ((bsGo_spec xs target hs (xs.length + 1) 0 xs.length (Nat.le_refl _)
    (Nat.zero_le _) (by omega) (by omega)
    (by intro k hk hklen; omega)).1) i h

theorem binarySearch_notFound {xs : List Nat} {target j : Nat}
    (hs : SortedLe xs) (h : binarySearch xs target = .notFound j) :
    j ≤ xs.length ∧ (∀ k, k < j → xs.getD k 0 < target) ∧
      (∀ k, j ≤ k → k < xs.length → target < xs.getD k 0) :=
  ((bsGo_spec xs target hs (xs.length + 1) 0 xs.length (Nat.le_refl _)
    (Nat.zero_le _) (by omega) (by omega)
    (by intro k hk hklen; omega)).2) j h

/-! ### Frame and safety lemmas for the overlay -/

theorem modifyAt_length {α : Type} (f : α → α) :
    ∀ (l : List α) (i : Nat), (modifyAt l i f).length = l.length := by
  intro l
  induction l with
  | nil => intro i; rfl
  | cons a as ih =>
    intro i
    cases i with
    | zero => rfl
    | succ i => simp [modifyAt, ih]

theorem modifyAt_getD_ne {α : Type} (f : α → α) (d : α) :
    ∀ (l : List α) (i j : Nat), j ≠ i →
      (modifyAt l i f).getD j d = l.getD j d := by
  intro l
  induction l with
  | nil => intro i j _; rfl
  | cons a as ih =>
    intro i j hne
    cases i with
    | zero =>
      cases j with
      | zero => exact absurd rfl hne
      | succ j => rfl
    | succ i =>
      cases j with
      | zero => rfl
      | succ j => simpa [modifyAt] using ih i j (by omega)

theorem modifyAt_getD_eq {α : Type} (f : α → α) (d : α) :
    ∀ (l : List α) (i : Nat), i < l.length →
      (modifyAt l i f).getD i d = f (l.getD i d) := by
  intro l
  induction l with
  | nil => intro i h; simp at h
  | cons a as ih =>
    intro i h
    cases i with
    | zero => rfl
    | succ i => simpa [modifyAt] using ih i (by simpa using h)

theorem emphRange_idem (x : StyledRange) :
    emphRange (emphRange x) = emphRange x := rfl

theorem emphRange_snd (x : StyledRange) : (emphRange x).2 = x.2 := rfl

/-- Relation between the original range list and any intermediate state of
the mutation loop: lengths agree and every entry is either untouched or
emphasized. -/
def FrameRel (orig cur : List StyledRange) : Prop :=
  cur.length = orig.length ∧
  ∀ i, i < orig.length →
    cur.getD i default = orig.getD i default ∨
    cur.getD i default = emphRange (orig.getD i default)

theorem FrameRel.refl (orig : List StyledRange) : FrameRel orig orig :=
  ⟨rfl, fun _ _ => Or.inl rfl⟩

theorem FrameRel.modifyAt {orig cur : List StyledRange}
    (h : FrameRel orig cur) (i : Nat) :
    FrameRel orig (Rgrok.modifyAt cur i emphRange) := by
  obtain ⟨hlen, hpt⟩ := h
  refine ⟨by rw [modifyAt_length, hlen], ?_⟩
  intro k hk
  by_cases hki : k = i
  · subst hki
    have hkc : k < cur.length := by omega
    rw [modifyAt_getD_eq emphRange default cur k hkc]
    rcases hpt k hk with hsame | hemph
    · exact Or.inr (by rw [hsame])
    · exact Or.inr (by rw [hemph, emphRange_idem])
  · rw [modifyAt_getD_ne emphRange default cur i k hki]
    exact hpt k hk

theorem highlightStep_frame {rs : List Nat} {orig cur next : List StyledRange}
    {m : Nat × Nat} (hstep : highlightStep rs cur m = some next)
    (h : FrameRel orig cur) : FrameRel orig next := by
  unfold highlightStep at hstep
  cases hbs : binarySearch rs m.1 with
  | found i =>
    rw [hbs] at hstep
    dsimp only at hstep
    by_cases hi : i < cur.length
    · rw [if_pos hi] at hstep
      cases hstep
      exact h.modifyAt i
    · rw [if_neg hi] at hstep
      cases hstep
  | notFound j =>
    rw [hbs] at hstep
    dsimp only at hstep
    by_cases hj : j < rs.length
    · rw [if_pos hj] at hstep
      by_cases hend : rs.getD j 0 = m.2
      · rw [if_pos hend] at hstep
        by_cases hj0 : j = 0
        · rw [if_pos hj0] at hstep
          cases hstep
        · rw [if_neg hj0] at hstep
          by_cases hj1 : j - 1 < rs.length
          · rw [if_pos hj1] at hstep
            by_cases hj2 : j - 1 < cur.length
            · rw [if_pos hj2] at hstep
              cases hstep
              exact h.modifyAt (j - 1)
            · rw [if_neg hj2] at hstep
              cases hstep
          · rw [if_neg hj1] at hstep
            cases hstep
            exact h
      · rw [if_neg hend] at hstep
        cases hstep
        exact h
    · rw [if_neg hj] at hstep
      cases hstep

theorem offsets_getD_zero (ls : List ByteStr) : (offsets ls).getD 0 0 = 0 := rfl

theorem offsets_getD_full (ls : List ByteStr) :
    (offsets ls).getD ls.length 0 = sumLens ls := by
  rw [offsets_getD ls ls.length (Nat.le_refl _), List.take_length]

/-- Pure content of one overlay iteration: which range, if any, the match
emphasizes. -/
def overlayStep (rs : List Nat) (cur : List StyledRange) (m : Nat × Nat) :
    List StyledRange :=
  match targetOf rs m with
  | some i => modifyAt cur i emphRange
  | none => cur

theorem overlayStep_length (rs : List Nat) (cur : List StyledRange)
    (m : Nat × Nat) : (overlayStep rs cur m).length = cur.length := by
  unfold overlayStep
  cases targetOf rs m with
  | none => rfl
  | some i => exact modifyAt_length emphRange cur i

/-- Under the interface preconditions (a nonempty in-line match over the
boundary table of the current ranges) `highlightStep` cannot panic: it
computes exactly the `overlayStep` update. -/
theorem highlightStep_eq_overlay (ls : List ByteStr) (cur : List StyledRange)
    (m : Nat × Nat) (hlen : cur.length = ls.length)
    (hm1 : m.1 < m.2) (hm2 : m.2 ≤ sumLens ls) :
    highlightStep (offsets ls) cur m = some (overlayStep (offsets ls) cur m) := by
  have hs := offsets_sortedLe ls
  have hn1 : (offsets ls).length = ls.length + 1 := offsets_length ls
  have hlast : (offsets ls).getD ls.length 0 = sumLens ls := offsets_getD_full ls
  unfold highlightStep overlayStep targetOf
  cases hbs : binarySearch (offsets ls) m.1 with
  | found i =>
    obtain ⟨hilen, hieq⟩ := binarySearch_found hs hbs
    have hine : i ≠ ls.length := by
      intro hcontra
      rw [hcontra, hlast] at hieq
      omega
    have hic : i < cur.length := by omega
    dsimp only
    rw [if_pos hic]
  | notFound j =>
    obtain ⟨hjle, hlt, hgt⟩ := binarySearch_notFound hs hbs
    have hjlen : j < (offsets ls).length := by
      rcases Nat.lt_or_ge j (offsets ls).length with h | h
      · exact h
      · exfalso
        have hj' : j = (offsets ls).length := by omega
        have := hlt ls.length (by omega)
        rw [hlast] at this
        omega
    have hj0 : j ≠ 0 := by
      intro hcontra
      have := hgt 0 (by omega) (by omega)
      rw [offsets_getD_zero] at this
      omega
    dsimp only
    rw [if_pos hjlen]
    by_cases hend : (offsets ls).getD j 0 = m.2
    · rw [if_pos hend, if_neg hj0, if_pos (by omega : j - 1 < (offsets ls).length),
        if_pos (by omega : j - 1 < cur.length),
        if_pos (⟨hjlen, hend, hj0⟩ : j < (offsets ls).length ∧
          (offsets ls).getD j 0 = m.2 ∧ j ≠ 0)]
    · rw [if_neg hend,
        if_neg (fun hcon => hend hcon.2.1 : ¬ (j < (offsets ls).length ∧
          (offsets ls).getD j 0 = m.2 ∧ j ≠ 0))]

/-- The whole match loop never panics under the interface preconditions
and folds to the pure overlay steps. -/
theorem highlightGo_eq_foldl (ls : List ByteStr) :
    ∀ (ms : List (Nat × Nat)) (cur : List StyledRange),
      cur.length = ls.length →
      (∀ m ∈ ms, m.1 < m.2 ∧ m.2 ≤ sumLens ls) →
      highlightGo (offsets ls) cur ms =
        some (ms.foldl (overlayStep (offsets ls)) cur) := by
  intro ms
  induction ms with
  | nil => intro cur _ _; rfl
  | cons m ms ih =>
    intro cur hlen hms
    obtain ⟨hm1, hm2⟩ := hms m (List.mem_cons_self m ms)
    unfold highlightGo
    rw [highlightStep_eq_overlay ls cur m hlen hm1 hm2]
    dsimp only
    have hlen' : (overlayStep (offsets ls) cur m).length = ls.length := by
      rw [overlayStep_length]; exact hlen
    rw [ih (overlayStep (offsets ls) cur m) hlen'
      (fun m' hm' => hms m' (List.mem_cons_of_mem m hm'))]
    rfl

theorem foldl_overlayStep_length (rs : List Nat) :
    ∀ (ms : List (Nat × Nat)) (cur : List StyledRange),
      (ms.foldl (overlayStep rs) cur).length = cur.length := by
  intro ms
  induction ms with
  | nil => intro cur; rfl
  | cons m ms ih =>
    intro cur
    rw [List.foldl_cons, ih, overlayStep_length]

theorem foldl_overlayStep_getD (rs : List Nat) :
    ∀ (ms : List (Nat × Nat)) (cur : List StyledRange) (i : Nat),
      i < cur.length →
      (ms.foldl (overlayStep rs) cur).getD i default =
        (if ms.any fun m => decide (targetOf rs m = some i) then
          emphRange (cur.getD i default)
        else cur.getD i default) := by
  intro ms
  induction ms with
  | nil => intro cur i _; simp
  | cons m ms ih =>
    intro cur i hi
    rw [List.foldl_cons]
    have hmlen : (overlayStep rs cur m).length = cur.length :=
      overlayStep_length rs cur m
    rw [ih (overlayStep rs cur m) i (by omega)]
    have hstep : (overlayStep rs cur m).getD i default =
        (if decide (targetOf rs m = some i) then emphRange (cur.getD i default)
        else cur.getD i default) := by
      unfold overlayStep
      cases ht : targetOf rs m with
      | none => simp [ht]
      | some k =>
        by_cases hki : k = i
        · subst hki
          rw [modifyAt_getD_eq emphRange default cur k hi]
          simp [ht]
        · rw [modifyAt_getD_ne emphRange default cur k i (by omega)]
          simp [ht, hki]
    rw [hstep, List.any_cons]
    by_cases h1 : decide (targetOf rs m = some i) = true
    · by_cases h2 : (ms.any fun m => decide (targetOf rs m = some i)) = true
      · simp [h1, h2, emphRange_idem]
      · simp [h1, h2]
    · by_cases h2 : (ms.any fun m => decide (targetOf rs m = some i)) = true
      · simp [h1, h2]
      · simp [h1, h2]

theorem applyCond_length (cond : Nat → Bool) :
    ∀ (l : List StyledRange) (i0 : Nat), (applyCond cond i0 l).length = l.length := by
  intro l
  induction l with
  | nil => intro i0; rfl
  | cons x rest ih => intro i0; simp [applyCond, ih]

theorem applyCond_getD (cond : Nat → Bool) :
    ∀ (l : List StyledRange) (i0 i : Nat), i < l.length →
      (applyCond cond i0 l).getD i default =
        (if cond (i0 + i) then emphRange (l.getD i default)
        else l.getD i default) := by
  intro l
  induction l with
  | nil => intro i0 i h; simp at h
  | cons x rest ih =>
    intro i0 i h
    cases i with
    | zero => simp [applyCond]
    | succ i =>
      have := ih (i0 + 1) i (by simpa using h)
      simp only [applyCond, List.getD_cons_succ]
      rw [this]
      have harith : i0 + 1 + i = i0 + (i + 1) := by omega
      rw [harith]

/-- Pointwise equality of lists through `getD` with a fixed default. -/
theorem list_eq_of_getD {α : Type} (d : α) :
    ∀ (l₁ l₂ : List α), l₁.length = l₂.length →
      (∀ i, i < l₁.length → l₁.getD i d = l₂.getD i d) → l₁ = l₂ := by
  intro l₁
  induction l₁ with
  | nil =>
    intro l₂ hlen _
    cases l₂ with
    | nil => rfl
    | cons y ys => simp at hlen
  | cons x xs ih =>
    intro l₂ hlen hpt
    cases l₂ with
    | nil => simp at hlen
    | cons y ys =>
      have hx : x = y := hpt 0 (by simp)
      have hrest : xs = ys := by
        refine ih ys (by simpa using hlen) ?_
        intro i hi
        simpa using hpt (i + 1) (by simpa using hi)
      rw [hx, hrest]

/-- Which range a single match drives the code to emphasize, characterized
against the boundary table: either the match starts exactly at range `i`'s
start boundary, or it starts strictly inside range `i` and ends exactly at
range `i`'s end boundary. -/
theorem targetOf_some_iff (ls : List ByteStr) (hpos : ∀ c ∈ ls, c ≠ [])
    (m : Nat × Nat) (hm1 : m.1 < m.2) (_hm2 : m.2 ≤ sumLens ls)
    (i : Nat) (hi : i < ls.length) :
    targetOf (offsets ls) m = some i ↔
      ((offsets ls).getD i 0 = m.1 ∨
        ((offsets ls).getD i 0 < m.1 ∧ m.1 < (offsets ls).getD (i + 1) 0 ∧
          m.2 = (offsets ls).getD (i + 1) 0)) := by
  have hs := offsets_sortedLe ls
  have hn1 : (offsets ls).length = ls.length + 1 := offsets_length ls
  have hlast : (offsets ls).getD ls.length 0 = sumLens ls := offsets_getD_full ls
  have hstrict : ∀ a b : Nat, a < b → b ≤ ls.length →
      (offsets ls).getD a 0 < (offsets ls).getD b 0 :=
    fun a b hab hb => offsets_getD_strict ls hpos hab hb
  constructor
  · intro h
    unfold targetOf at h
    cases hbs : binarySearch (offsets ls) m.1 with
    | found i' =>
      rw [hbs] at h
      cases h
      obtain ⟨_, hieq⟩ := binarySearch_found hs hbs
      exact Or.inl hieq
    | notFound j =>
      rw [hbs] at h
      dsimp only at h
      by_cases hc : j < (offsets ls).length ∧ (offsets ls).getD j 0 = m.2 ∧ j ≠ 0
      · rw [if_pos hc] at h
        cases h
        obtain ⟨hjlen, hend, hj0⟩ := hc
        obtain ⟨_, hlt, hgt⟩ := binarySearch_notFound hs hbs
        have hji : j - 1 + 1 = j := by omega
        refine Or.inr ⟨?_, ?_, ?_⟩
        · exact hlt (j - 1) (by omega)
        · rw [hji]; exact hgt j (Nat.le_refl _) hjlen
        · rw [hji]; exact hend.symm
      · rw [if_neg hc] at h
        cases h
  · intro h
    have hil : i ≤ ls.length := Nat.le_of_lt hi
    unfold targetOf
    rcases h with heq | ⟨hlo, hhi, hend⟩
    · cases hbs : binarySearch (offsets ls) m.1 with
      | found i' =>
        obtain ⟨hi'len, hi'eq⟩ := binarySearch_found hs hbs
        have : i' = i := by
          rcases Nat.lt_trichotomy i' i with hlt' | heq' | hgt'
          · have := hstrict i' i hlt' hil
            rw [hi'eq, heq] at this
            omega
          · exact heq'
          · have hi'le : i' ≤ ls.length := by omega
            have := hstrict i i' hgt' hi'le
            rw [hi'eq, heq] at this
            omega
        rw [this]
      | notFound j =>
        exfalso
        obtain ⟨hjle, hlt, hgt⟩ := binarySearch_notFound hs hbs
        rcases Nat.lt_or_ge i j with hij | hij
        · have := hlt i hij
          omega
        · have := hgt i hij (by omega)
          omega
    · cases hbs : binarySearch (offsets ls) m.1 with
      | found i' =>
        exfalso
        obtain ⟨hi'len, hi'eq⟩ := binarySearch_found hs hbs
        rcases Nat.lt_or_ge i' (i + 1) with hii | hii
        · have hii' : i' ≤ i := by omega
          have : (offsets ls).getD i' 0 ≤ (offsets ls).getD i 0 :=
            hs i' i hii' (by omega)
          omega
        · have : (offsets ls).getD (i + 1) 0 ≤ (offsets ls).getD i' 0 :=
            hs (i + 1) i' hii (by omega)
          omega
      | notFound j =>
        obtain ⟨hjle, hlt, hgt⟩ := binarySearch_notFound hs hbs
        have hj : j = i + 1 := by
          rcases Nat.lt_or_ge j (i + 1) with hcase | hcase
          · exfalso
            have hji : j ≤ i := by omega
            have := hgt i hji (by omega)
            omega
          · rcases Nat.lt_or_ge (i + 1) j with hcase' | hcase'
            · exfalso
              have := hlt (i + 1) hcase'
              omega
            · omega
        subst hj
        dsimp only
        rw [if_pos (⟨by omega, hend.symm, by omega⟩ :
          i + 1 < (offsets ls).length ∧
            (offsets ls).getD (i + 1) 0 = m.2 ∧ i + 1 ≠ 0)]
        simp

/-! ### Scheduling, permutations and per-file results -/

theorem map_getD_range {α : Type} (d : α) :
    ∀ l : List α, (List.range l.length).map (fun i => l.getD i d) = l := by
  intro l
  induction l with
  | nil => rfl
  | cons x xs ih =>
    rw [List.length_cons, List.range_succ_eq_map, List.map_cons, List.map_map]
    simp only [List.getD_cons_zero]
    have : (fun i => (x :: xs).getD i d) ∘ Nat.succ = fun i => xs.getD i d := by
      funext i
      simp [Function.comp]
    rw [this, ih]

theorem applySched_perm {α : Type} (σ : List Nat) (l : List α) (d : α)
    (h : ValidSched σ l) : (applySched σ l d).Perm l := by
  have hmap : (σ.map fun i => l.getD i d).Perm
      ((List.range l.length).map fun i => l.getD i d) := h.map _
  rw [map_getD_range d l] at hmap
  exact hmap

theorem perm_eq_of_length_le_one {α : Type} {l₁ l₂ : List α}
    (h : l₁.Perm l₂) (hlen : l₂.length ≤ 1) : l₁ = l₂ := by
  cases l₂ with
  | nil => exact h.eq_nil
  | cons x xs =>
    cases xs with
    | nil => exact List.perm_singleton.mp h
    | cons y ys => simp at hlen

theorem applySched_eq_of_length_le_one {α : Type} (σ : List Nat) (l : List α)
    (d : α) (h : ValidSched σ l) (hlen : l.length ≤ 1) :
    applySched σ l d = l :=
  perm_eq_of_length_le_one (applySched_perm σ l d h) hlen

/-- Sequential mode on an all-readable tree: the flattened per-file result
blocks in traversal order, completing normally. -/
theorem rgrokDirSeq_all_readable (im : ByteStr → Bool) (r : ByteStr → ByteStr) :
    ∀ files : List RFile, (∀ f ∈ files, f.readable = true) →
      rgrokDirSeq im r files = (((files.map (grepItems im r))).flatten, true) := by
  intro files
  induction files with
  | nil => intro _; rfl
  | cons f rest ih =>
    intro hread
    have hf : f.readable = true := hread f (List.mem_cons_self f rest)
    rw [rgrokDirSeq, if_pos hf, ih (fun g hg => hread g (List.mem_cons_of_mem f hg))]
    simp

/-- Dropping list elements whose image is empty does not change the
flattened image. -/
theorem flatten_map_filter {α : Type} (p : α → Bool) (g : α → List GrepResult) :
    ∀ l : List α, (∀ x ∈ l, p x = false → g x = []) →
      ((l.filter p).map g).flatten = (l.map g).flatten := by
  intro l
  induction l with
  | nil => intro _; rfl
  | cons x xs ih =>
    intro h
    have hxs := fun y hy => h y (List.mem_cons_of_mem x hy)
    by_cases hx : p x = true
    · rw [List.filter_cons_of_pos hx]
      simp [ih hxs]
    · have hx' : p x = false := by
        cases hpx : p x
        · rfl
        · exact absurd hpx hx
      rw [List.filter_cons_of_neg (by simp [hx'])]
      simp [ih hxs, h x (List.mem_cons_self x xs) hx']

/-- Every slice the pipeline takes sits inside the whole contents. -/
theorem sliceBytes_decomp (t : ByteStr) (a b : Nat) :
    t = t.take a ++ sliceBytes t a b ++ (t.drop a).drop (b - a) := by
  rw [sliceBytes, List.append_assoc, List.take_append_drop, List.take_append_drop]

/-- If the pattern does not match the whole file contents and matching is
monotone under widening to an enclosing byte string, `grep_items` emits
nothing for that file. -/
theorem grepItems_eq_nil_of_not_match (im : ByteStr → Bool)
    (r : ByteStr → ByteStr) (f : RFile)
    (hmono : ∀ (a pre post : ByteStr), im a = true → im (pre ++ a ++ post) = true)
    (hno : im f.contents = false) : grepItems im r f = [] := by
  unfold grepItems
  cases hp : f.parsed with
  | none => rfl
  | some items =>
    rw [List.filterMap_eq_nil_iff]
    intro x _
    obtain ⟨t, s, e⟩ := x
    unfold grepItem
    by_cases hlen : (byteSpans f.contents).length > 100
    · simp [hlen]
    · have hslice : im (sliceBytes f.contents
          ((byteSpans f.contents).getD s 0)
          ((byteSpans f.contents).getD e 0)) = false := by
        cases him : im (sliceBytes f.contents
            ((byteSpans f.contents).getD s 0)
            ((byteSpans f.contents).getD e 0))
        · rfl
        · exfalso
          have := hmono _ (f.contents.take ((byteSpans f.contents).getD s 0))
            ((f.contents.drop ((byteSpans f.contents).getD s 0)).drop
              ((byteSpans f.contents).getD e 0 - (byteSpans f.contents).getD s 0))
            him
          rw [← sliceBytes_decomp] at this
          rw [this] at hno
          cases hno
      simp only [grepItem]
      rw [if_neg hlen]
      rw [if_neg (by rw [hslice]; exact Bool.false_ne_true)]

/-- Boolean `any` respects pointwise equality on members. -/
theorem any_congr_mem {α : Type} (f g : α → Bool) :
    ∀ l : List α, (∀ x ∈ l, f x = g x) → l.any f = l.any g := by
  intro l
  induction l with
  | nil => intro _; rfl
  | cons x xs ih =>
    intro h
    rw [List.any_cons, List.any_cons, h x (List.mem_cons_self x xs),
      ih fun y hy => h y (List.mem_cons_of_mem x hy)]

theorem getD_map_snd (l : List StyledRange) (i : Nat) (h : i < l.length) :
    (l.map Prod.snd).getD i [] = (l.getD i default).2 := by
  simp [List.getD_eq_getElem?_getD, List.getElem?_map, List.getElem?_eq_getElem h]

theorem highlightGo_frame {rs : List Nat} {orig : List StyledRange} :
    ∀ (ms : List (Nat × Nat)) (cur out : List StyledRange),
      FrameRel orig cur → highlightGo rs cur ms = some out →
      FrameRel orig out := by
  intro ms
  induction ms with
  | nil =>
    intro cur out h hgo
    cases hgo
    exact h
  | cons m ms ih =>
    intro cur out h hgo
    unfold highlightGo at hgo
    cases hstep : highlightStep rs cur m with
    | none => rw [hstep] at hgo; cases hgo
    | some next =>
      rw [hstep] at hgo
      exact ih next out (highlightStep_frame hstep h) hgo

/-! ### Additional small helpers for the claims -/

theorem headD_eq_getD {α : Type} (l : List α) (d : α) : l.headD d = l.getD 0 d := by
  cases l <;> rfl

theorem getD_tail {α : Type} (l : List α) (k : Nat) (d : α) :
    l.tail.getD k d = l.getD (k + 1) d := by
  cases l <;> rfl

/-! ### Concrete fixtures used by the claims -/

/-- Bytes of the one-line Rust file `fn f() {}` (no trailing newline). -/
def fnLine : ByteStr := [102, 110, 32, 102, 40, 41, 32, 123, 125]

/-- A one-hundred-line file: `fn f() {}` on line 1 followed by 99 blank
lines.  Its ByteSpanTable has 101 entries, so `grep_items` takes the dead
large-file branch for every construct. -/
def text100 : ByteStr := fnLine ++ List.replicate 100 nlByte

/-- An unemphasized style (foreground differs from the highlight colour,
no bold bit). -/
def plainStyle : Style := ⟨⟨0, 0, 0, 255⟩, ⟨30, 30, 30, 255⟩, 0⟩

/-- Two plain styled ranges covering the line `abcd` as `ab` / `cd`. -/
def cexRanges : List StyledRange := [(plainStyle, [97, 98]), (plainStyle, [99, 100])]

/-- The specification's own fixture: ranges `fn ` and `foo`. -/
def fixRanges : List StyledRange :=
  [(plainStyle, [102, 110, 32]), (plainStyle, [102, 111, 111])]

/-- The trivial matcher: every byte string matches (e.g. the pattern
`(?s).*`). -/
def imTrue : ByteStr → Bool := fun _ => true

/-- A matcher realized by the anchored regex `^c`: a haystack matches
exactly when its first byte is `c`.  Anchored matching is not monotone
under widening to an enclosing string. -/
def imAnchored : ByteStr → Bool := fun s => decide (s.head? = some 99)

/-- A readable file `ab\ncd\n` whose single construct spans lines 1-2;
the slice the code takes for it is `cd\n`, which starts with `c`. -/
def c6File : RFile := ⟨true, [97, 98, 10, 99, 100, 10], some [(.Fn, 1, 2)]⟩

/-- A readable file `a\nb\n` with two parsed constructs, one per line. -/
def c7File : RFile := ⟨true, [97, 10, 98, 10], some [(.Fn, 1, 1), (.Struct, 2, 2)]⟩

/-- First of two one-construct files for the ordering test. -/
def fileA : RFile := ⟨true, [97, 10], some [(.Fn, 1, 1)]⟩

/-- Second of two one-construct files for the ordering test. -/
def fileB : RFile := ⟨true, [98, 10], some [(.Struct, 1, 1)]⟩

/-- A file whose read fails (`std::fs::read_to_string` error). -/
def unreadableFile : RFile := ⟨false, [], none⟩

/-- A readable, parseable file with one matching construct. -/
def readableFileB : RFile := ⟨true, [97, 10], some [(.Fn, 1, 1)]⟩

/-- A readable file `(\n` that the external parser rejects. -/
def parseFailFile : RFile := ⟨true, [40, 10], none⟩

/-! ### The claims -/

/-- C1: the claim states that the slice `text[table[start]..table[end]]`
taken by `grep_items` equals, byte for byte, the concatenation of lines
`start` through `end` (1-indexed, terminators included).  On the one-line
file `fn f() {}` with parser span `(1, 1)` the code's slice is empty while
lines 1..1 are the whole file; the byte-exact slice would come from
`table[start - 1]` (last conjunct).  The code contradicts the
specification's stated round-trip intent and its own table comment
(src/lib.rs lines 290-291) by one line. -/
theorem spec_claim_C1_code_bug :
    codeSlice fnLine 1 1 = [] ∧
    specLinesSlice fnLine 1 1 = fnLine ∧
    fnLine ≠ [] ∧
    sliceBytes fnLine ((byteSpans fnLine).getD 0 0)
      ((byteSpans fnLine).getD 1 0) = fnLine := by
  refine ⟨by decide, by decide, by decide, by decide⟩

/-- C2 counterexample: on a file of one hundred lines, a construct whose
slice the (trivially matching) pattern matches produces no rendered
result, because `byte_spans.len() > 100` routes every construct into the
dead branch (src/lib.rs lines 323-330).  This refutes the claim that only
the whole-slice regex test decides qualification. -/
theorem spec_claim_C2_counterexample :
    grepItem imTrue id text100 (byteSpans text100) (.Fn, 1, 1) = none ∧
    imTrue (codeSlice text100 1 1) = true ∧
    (byteSpans text100).length = 101 := by
  refine ⟨by decide, rfl, by decide⟩

/-- C2 (amended): for a nonempty file, a construct produces a rendered
result if and only if the file has at most 99 lines (so the span table has
at most 100 entries) and the regex matches the construct's whole sliced
text. -/
theorem spec_claim_C2_amended (im : ByteStr → Bool) (r : ByteStr → ByteStr)
    (c : ByteStr) (t : ItemType) (s e : Nat) (hne : c ≠ []) :
    grepItem im r c (byteSpans c) (t, s, e) ≠ none ↔
      ((lineChunks c).length ≤ 99 ∧ im (codeSlice c s e) = true) := by
  have hlen : (byteSpans c).length = (lineChunks c).length + 1 := by
    rw [byteSpans_length, findIterLine_of_ne_nil hne]
  simp only [grepItem]
  by_cases hbig : (byteSpans c).length > 100
  · rw [if_pos hbig]
    constructor
    · intro h
      exact absurd rfl h
    · intro h
      exfalso
      omega
  · rw [if_neg hbig]
    by_cases him : im (sliceBytes c ((byteSpans c).getD s 0)
        ((byteSpans c).getD e 0)) = true
    · rw [if_pos him]
      constructor
      · intro _
        exact ⟨by omega, him⟩
      · intro _
        simp
    · rw [if_neg him]
      constructor
      · intro h
        exact absurd rfl h
      · intro h
        exact absurd h.2 him

/-- C2 witness: the amended equivalence evaluated on the two-line file
`a\n` with span `(1, 1)`. -/
theorem spec_claim_C2_witness :
    grepItem imTrue id [97, 10] (byteSpans [97, 10]) (.Fn, 1, 1) ≠ none ↔
      ((lineChunks [97, 10]).length ≤ 99 ∧
        imTrue (codeSlice [97, 10] 1 1) = true) :=
  spec_claim_C2_amended imTrue id [97, 10] .Fn 1 1 (by decide)

/-- C3 counterexample: for the empty file text the regex iterator reports
one empty match, so the table is `[0, 0]` — an extra entry beyond the
claimed one-entry-per-line-boundary shape (an empty file has zero lines,
so the claim demands a single entry). -/
theorem spec_claim_C3_counterexample :
    byteSpans [] = [0, 0] ∧
    (byteSpans ([] : ByteStr)).length ≠ (lineChunks ([] : ByteStr)).length + 1 := by
  refine ⟨by decide, by decide⟩

/-- C3 (amended): for every nonempty file text over any mix of `\n` and
`\r\n` terminators, the ByteSpanTable starts at 0, ends at the byte length
of the text, is non-decreasing, has exactly one entry per line boundary,
and consecutive differences are the byte lengths of the lines including
terminators.  (For the empty text the table is `[0, 0]`, which still
starts at 0, ends at the length and is non-decreasing, but has one extra
entry.) -/
theorem spec_claim_C3_amended (t : ByteStr) (hne : t ≠ []) :
    (byteSpans t).getD 0 0 = 0 ∧
    (byteSpans t).getLast? = some t.length ∧
    List.Chain' (· ≤ ·) (byteSpans t) ∧
    (byteSpans t).length = (lineChunks t).length + 1 ∧
    (∀ i, i < (lineChunks t).length →
      (byteSpans t).getD (i + 1) 0 - (byteSpans t).getD i 0 =
        ((lineChunks t).getD i []).length) := by
  have hf : findIterLine t = lineChunks t := findIterLine_of_ne_nil hne
  refine ⟨rfl, byteSpans_last_eq_length t, ?_, ?_, ?_⟩
  · rw [byteSpans]
    exact offsets_chain'_le _
  · rw [byteSpans_length, hf]
  · intro i hi
    rw [byteSpans, hf]
    exact offsets_diff (lineChunks t) i hi

/-- C3 witness: the amended invariants evaluated on `a\r\nb\n`, a text
mixing a `\r\n` and a bare `\n` terminator. -/
theorem spec_claim_C3_witness :
    (byteSpans [97, 13, 10, 98, 10]).getD 0 0 = 0 ∧
    (byteSpans [97, 13, 10, 98, 10]).getLast? =
      some (List.length ([97, 13, 10, 98, 10] : ByteStr)) ∧
    List.Chain' (· ≤ ·) (byteSpans [97, 13, 10, 98, 10]) ∧
    (byteSpans [97, 13, 10, 98, 10]).length =
      (lineChunks [97, 13, 10, 98, 10]).length + 1 ∧
    (∀ i, i < (lineChunks [97, 13, 10, 98, 10]).length →
      (byteSpans [97, 13, 10, 98, 10]).getD (i + 1) 0 -
          (byteSpans [97, 13, 10, 98, 10]).getD i 0 =
        ((lineChunks [97, 13, 10, 98, 10]).getD i []).length) :=
  spec_claim_C3_amended [97, 13, 10, 98, 10] (by decide)

/-- C4 counterexample: the claim's `iff` says a range is emphasized
whenever some match's end offset equals a range boundary and the range
immediately precedes that boundary.  For ranges `ab` / `cd` (boundaries
`[0, 2, 4]`) and the single match `(1, 4)`, the match's end 4 equals the
boundary after range 1, so the claim demands range 1 be emphasized — but
the code checks only the first boundary after the match's start
(`rs[1] = 2 ≠ 4`) and leaves both ranges untouched. -/
theorem spec_claim_C4_counterexample :
    highlight_matches_in_line cexRanges [(1, 4)] = some cexRanges ∧
    (offsets (cexRanges.map Prod.snd)).getD 2 0 = 4 ∧
    emphRange (cexRanges.getD 1 default) ≠ cexRanges.getD 1 default := by
  refine ⟨by decide, by decide, by decide⟩

/-- C4 (amended): for ranges with nonempty slices and nonempty in-line
matches, `highlight_matches_in_line` emphasizes exactly those ranges whose
start boundary equals some match's start offset, or inside which some
match starts strictly and ends exactly at that same range's end boundary
(the match occupies the range's tail); all other ranges are returned
unchanged. -/
theorem spec_claim_C4_amended (ranges : List StyledRange)
    (ms : List (Nat × Nat)) (hpos : ∀ x ∈ ranges, x.2 ≠ [])
    (hms : ∀ m ∈ ms, m.1 < m.2 ∧ m.2 ≤ sumLens (ranges.map Prod.snd)) :
    highlight_matches_in_line ranges ms =
      some (applyCond (specEmphCond (offsets (ranges.map Prod.snd)) ms) 0 ranges) := by
  have hlen : ranges.length = (ranges.map Prod.snd).length :=
    (List.length_map _ _).symm
  have hpos' : ∀ c ∈ ranges.map Prod.snd, c ≠ [] := by
    intro c hc
    rw [List.mem_map] at hc
    obtain ⟨x, hx, hxc⟩ := hc
    rw [← hxc]
    exact hpos x hx
  rw [highlight_matches_in_line,
    highlightGo_eq_foldl (ranges.map Prod.snd) ms ranges hlen hms]
  congr 1
  apply list_eq_of_getD default
  · rw [foldl_overlayStep_length, applyCond_length]
  · intro i hi
    rw [foldl_overlayStep_length] at hi
    rw [foldl_overlayStep_getD _ ms ranges i hi,
      applyCond_getD _ ranges 0 i hi, Nat.zero_add]
    have hcond : (ms.any fun m =>
        decide (targetOf (offsets (ranges.map Prod.snd)) m = some i)) =
        specEmphCond (offsets (ranges.map Prod.snd)) ms i := by
      unfold specEmphCond
      apply any_congr_mem
      intro m hm
      obtain ⟨hm1, hm2⟩ := hms m hm
      exact decide_eq_decide.mpr
        (targetOf_some_iff (ranges.map Prod.snd) hpos' m hm1 hm2 i
          (by omega))
    rw [hcond]

/-- C4 witness: the specification's fixture — ranges `fn ` / `foo` with
the match at bytes 3..6 — evaluated through the amended theorem; range
index 1 ends emphasized and range 0 is untouched. -/
theorem spec_claim_C4_witness :
    highlight_matches_in_line fixRanges [(3, 6)] =
      some (applyCond (specEmphCond (offsets (fixRanges.map Prod.snd))
        [(3, 6)]) 0 fixRanges) ∧
    applyCond (specEmphCond (offsets (fixRanges.map Prod.snd)) [(3, 6)])
        0 fixRanges =
      [(plainStyle, [102, 110, 32]), emphRange (plainStyle, [102, 111, 111])] :=
  ⟨spec_claim_C4_amended fixRanges [(3, 6)] (by decide) (by decide), by decide⟩

/-- C5: whenever `highlight_matches_in_line` returns, the partition of the
line is unchanged — same number of ranges and identical text slices (hence
identical slice boundaries) — and each range's style is either untouched
or emphasized (bold font weight and the highlight foreground); the
background colour is never modified. -/
theorem spec_claim_C5 (ranges : List StyledRange) (ms : List (Nat × Nat))
    (out : List StyledRange)
    (h : highlight_matches_in_line ranges ms = some out) :
    out.length = ranges.length ∧
    out.map Prod.snd = ranges.map Prod.snd ∧
    ∀ i, i < ranges.length →
      ((out.getD i default).1 = (ranges.getD i default).1 ∨
        (out.getD i default).1 = emphStyle (ranges.getD i default).1) ∧
      (out.getD i default).1.background = (ranges.getD i default).1.background := by
  have hframe : FrameRel ranges out :=
    highlightGo_frame ms ranges out (FrameRel.refl ranges) h
  obtain ⟨hlen, hpt⟩ := hframe
  refine ⟨hlen, ?_, ?_⟩
  · apply list_eq_of_getD ([] : ByteStr)
    · rw [List.length_map, List.length_map, hlen]
    · intro i hi
      rw [List.length_map] at hi
      have hi' : i < ranges.length := by omega
      rw [getD_map_snd out i hi, getD_map_snd ranges i hi']
      rcases hpt i hi' with hsame | hemph
      · rw [hsame]
      · rw [hemph, emphRange_snd]
  · intro i hi
    rcases hpt i hi with hsame | hemph
    · rw [hsame]
      exact ⟨Or.inl rfl, rfl⟩
    · rw [hemph]
      exact ⟨Or.inr rfl, rfl⟩

/-- C5 witness: a one-range line whose single match emphasizes the range;
the slice partition is unchanged and only the style moved. -/
theorem spec_claim_C5_witness :
    ([(emphStyle plainStyle, [97])] : List StyledRange).length =
      ([(plainStyle, [97])] : List StyledRange).length ∧
    ([(emphStyle plainStyle, [97])] : List StyledRange).map Prod.snd =
      ([(plainStyle, [97])] : List StyledRange).map Prod.snd ∧
    ∀ i, i < ([(plainStyle, [97])] : List StyledRange).length →
      ((([(emphStyle plainStyle, [97])] : List StyledRange).getD i default).1 =
          ((([(plainStyle, [97])] : List StyledRange)).getD i default).1 ∨
        (([(emphStyle plainStyle, [97])] : List StyledRange).getD i default).1 =
          emphStyle ((([(plainStyle, [97])] : List StyledRange)).getD i default).1) ∧
      (([(emphStyle plainStyle, [97])] : List StyledRange).getD i default).1.background =
        ((([(plainStyle, [97])] : List StyledRange)).getD i default).1.background :=
  spec_claim_C5 [(plainStyle, [97])] [(0, 1)] [(emphStyle plainStyle, [97])]
    (by decide)

/-- C10: under the interface preconditions — styled ranges of total byte
length L and nonempty, ordered, non-overlapping match ranges within L —
every index access of `highlight_matches_in_line` is in bounds and the
function returns (no panic).  The nonemptiness precondition is necessary:
the second conjunct exhibits an empty match at the end of the line driving
the `Ok` arm of the binary search to the out-of-bounds access
`ranges[rs.len() - 1]`. -/
theorem spec_claim_C10 :
    (∀ (ranges : List StyledRange) (ms : List (Nat × Nat)),
      List.Pairwise (fun a b => a.2 ≤ b.1) ms →
      (∀ m ∈ ms, m.1 < m.2 ∧ m.2 ≤ sumLens (ranges.map Prod.snd)) →
      (highlight_matches_in_line ranges ms).isSome = true) ∧
    highlight_matches_in_line [(plainStyle, [97, 98])] [(2, 2)] = none := by
  constructor
  · intro ranges ms _ hms
    rw [highlight_matches_in_line,
      highlightGo_eq_foldl (ranges.map Prod.snd) ms ranges
        (List.length_map _ _).symm hms]
    rfl
  · decide

/-- C10 witness: a concrete in-bounds run returning successfully. -/
theorem spec_claim_C10_witness :
    (highlight_matches_in_line [(plainStyle, [97, 98, 99])] [(0, 2)]).isSome = true :=
  spec_claim_C10.1 [(plainStyle, [97, 98, 99])] [(0, 2)] (by decide) (by decide)

/-- C6 counterexample: the claim quantifies over every regex pattern, but
the parallel visitor's whole-file prefilter (`re.is_match(&file.contents)`,
src/lib.rs line 214) drops files an anchored pattern would match only at a
construct slice.  With the matcher realized by `^c` on the file `ab\ncd\n`
(construct slice `cd\n`), sequential mode emits the construct and parallel
mode emits nothing, so the two result multisets differ. -/
theorem spec_claim_C6_counterexample :
    (rgrokDirSeq imAnchored id [c6File]).1 = [⟨.Fn, (1, 2), [99, 100, 10]⟩] ∧
    rgrokDirPar imAnchored id [0] [c6File] = [] ∧
    imAnchored [99, 100, 10] = true ∧ imAnchored c6File.contents = false := by
  refine ⟨by decide, by decide, by decide, by decide⟩

/-- C6 (amended): when every file of the tree is readable and the match
predicate is monotone under widening to an enclosing byte string (true of
unanchored patterns, for which a match inside a slice is a match inside
the whole contents), parallel mode produces exactly the multiset of
rendered results of sequential mode, for any visiting order of the
parallel walker. -/
theorem spec_claim_C6_amended (im : ByteStr → Bool) (r : ByteStr → ByteStr)
    (π : List Nat) (files : List RFile)
    (hread : ∀ f ∈ files, f.readable = true)
    (hmono : ∀ (a pre post : ByteStr), im a = true → im (pre ++ a ++ post) = true)
    (hπ : ValidSched π files) :
    (rgrokDirPar im r π files).Perm ((rgrokDirSeq im r files).1) := by
  have hseq : (rgrokDirSeq im r files).1 = ((files.map (grepItems im r))).flatten := by
    rw [rgrokDirSeq_all_readable im r files hread]
  rw [hseq, rgrokDirPar]
  have hperm : (applySched π files defaultFile).Perm files :=
    applySched_perm π files defaultFile hπ
  have hdrop : ((((applySched π files defaultFile).filter
        fun f => im f.contents)).map (grepItems im r)).flatten =
      ((applySched π files defaultFile).map (grepItems im r)).flatten := by
    apply flatten_map_filter
    intro f _ hfalse
    exact grepItems_eq_nil_of_not_match im r f hmono hfalse
  rw [hdrop]
  exact (hperm.map (grepItems im r)).flatten

/-- C6 witness: the amended equivalence on a one-file tree with the
always-matching (hence monotone) pattern. -/
theorem spec_claim_C6_witness :
    (rgrokDirPar imTrue id [0] [c6File]).Perm ((rgrokDirSeq imTrue id [c6File]).1) :=
  spec_claim_C6_amended imTrue id [0] [c6File] (by decide)
    (fun _ _ _ _ => rfl) (by decide)

/-- C7 counterexample: even in sequential mode, `grep_items` runs the
constructs of one file through a rayon parallel iterator feeding an
unbounded channel and prints in channel receipt order (src/lib.rs
lines 303-364), so within-file output order is a scheduling-dependent
permutation, not declaration order.  With two qualifying constructs and
the receipt schedule `[1, 0]` — a valid permutation of the construct
indices — the emitted order is the reverse of declaration order. -/
theorem spec_claim_C7_counterexample :
    ValidSched [1, 0] (grepItems imTrue id c7File) ∧
    (rgrokDirSeqSched imTrue id [[1, 0]] [c7File]).1 =
      [⟨.Struct, (2, 2), []⟩, ⟨.Fn, (1, 1), []⟩] ∧
    (rgrokDirSeq imTrue id [c7File]).1 =
      [⟨.Fn, (1, 1), []⟩, ⟨.Struct, (2, 2), []⟩] ∧
    (rgrokDirSeqSched imTrue id [[1, 0]] [c7File]).1 ≠
      (rgrokDirSeq imTrue id [c7File]).1 := by
  refine ⟨by decide, by decide, by decide, by decide⟩

/-- C7 (amended): in sequential mode over readable files, for every
receipt schedule the output is the per-file result blocks in traversal
order — all of an earlier file's results precede all of a later file's —
with each block some permutation of that file's qualifying constructs in
declaration order (first conjunct: the whole output is a permutation of
the declaration-order output, file blocks never interleave by
construction); and when every file has at most one qualifying construct
(the specification's `a.src`/`b.src` test) the output is fully
deterministic and equals traversal-then-declaration order (second
conjunct). -/
theorem spec_claim_C7_amended (im : ByteStr → Bool) (r : ByteStr → ByteStr) :
    ∀ (files : List RFile) (σs : List (List Nat)),
      (∀ f ∈ files, f.readable = true) →
      (∀ k, k < files.length →
        ValidSched (σs.getD k []) (grepItems im r (files.getD k defaultFile))) →
      ((rgrokDirSeqSched im r σs files).1).Perm ((rgrokDirSeq im r files).1) ∧
      ((∀ f ∈ files, (grepItems im r f).length ≤ 1) →
        rgrokDirSeqSched im r σs files = rgrokDirSeq im r files) := by
  intro files
  induction files with
  | nil =>
    intro σs _ _
    exact ⟨List.Perm.refl _, fun _ => rfl⟩
  | cons f rest ih =>
    intro σs hread hvalid
    have hf : f.readable = true := hread f (List.mem_cons_self f rest)
    have hv0 : ValidSched (σs.getD 0 []) (grepItems im r f) := by
      have h := hvalid 0 (by simp)
      simpa using h
    have hvrest : ∀ k, k < rest.length →
        ValidSched (σs.tail.getD k []) (grepItems im r (rest.getD k defaultFile)) := by
      intro k hk
      have h := hvalid (k + 1) (by simpa using Nat.succ_lt_succ hk)
      rw [getD_tail]
      simpa using h
    have hreadrest : ∀ g ∈ rest, g.readable = true :=
      fun g hg => hread g (List.mem_cons_of_mem f hg)
    have hsched : grepItemsSched (σs.headD []) im r f =
        applySched (σs.getD 0 []) (grepItems im r f) defaultResult := by
      rw [grepItemsSched, headD_eq_getD]
    constructor
    · simp only [rgrokDirSeqSched, rgrokDirSeq, if_pos hf]
      apply List.Perm.append
      · rw [hsched]
        exact applySched_perm _ _ _ hv0
      · exact (ih σs.tail hreadrest hvrest).1
    · intro hone
      simp only [rgrokDirSeqSched, rgrokDirSeq, if_pos hf]
      rw [hsched, applySched_eq_of_length_le_one _ _ _ hv0
        (hone f (List.mem_cons_self f rest)),
        (ih σs.tail hreadrest hvrest).2
          (fun g hg => hone g (List.mem_cons_of_mem f hg))]

/-- C7 witness: two files with one qualifying construct each, under the
identity schedules — the output is `fileA`'s result before `fileB`'s, in
both conjuncts. -/
theorem spec_claim_C7_witness :
    ((rgrokDirSeqSched imTrue id [[0], [0]] [fileA, fileB]).1).Perm
      ((rgrokDirSeq imTrue id [fileA, fileB]).1) ∧
    ((∀ f ∈ [fileA, fileB], (grepItems imTrue id f).length ≤ 1) →
      rgrokDirSeqSched imTrue id [[0], [0]] [fileA, fileB] =
        rgrokDirSeq imTrue id [fileA, fileB]) :=
  spec_claim_C7_amended imTrue id [fileA, fileB] [[0], [0]] (by decide)
    (by decide)

/-- C9 counterexample: a file whose read fails does not merely skip — in
sequential mode the error propagates through the `?` of
`parse_file(dir_entry)?` (src/lib.rs line 178), aborting the whole run:
the readable sibling after it, which on its own yields a result, emits
nothing. -/
theorem spec_claim_C9_counterexample :
    rgrokDirSeq imTrue id [unreadableFile, readableFileB] = ([], false) ∧
    grepItems imTrue id readableFileB = [⟨.Fn, (1, 1), []⟩] := by
  refine ⟨by decide, by decide⟩

/-- C9 (amended): a readable file whose text fails to parse is skipped
entirely — zero results, no partial results — and the run continues
exactly as if the file were absent, so siblings still produce their
results; an unreadable file, by contrast, aborts the sequential run (and
panics the visiting worker in parallel mode). -/
theorem spec_claim_C9_amended (im : ByteStr → Bool) (r : ByteStr → ByteStr)
    (f : RFile) (files : List RFile)
    (hread : f.readable = true) (hparse : f.parsed = none) :
    rgrokDirSeq im r (f :: files) = rgrokDirSeq im r files := by
  simp [rgrokDirSeq, if_pos hread, grepItems, hparse]

/-- C9 witness: the unparsable file `(\n` in front of a good sibling
changes nothing about the run's output. -/
theorem spec_claim_C9_witness :
    rgrokDirSeq imTrue id [parseFailFile, readableFileB] =
      rgrokDirSeq imTrue id [readableFileB] :=
  spec_claim_C9_amended imTrue id parseFailFile [readableFileB]
    (by decide) (by decide)

end Rgrok
